import Mathlib

/-!
Verification of `econtools/util/frametools.py`.

The file shallowly embeds the four functions of the module:

* `stata_merge` — a pandas merge that adds a Stata-style merge-status flag
  (1 = unmatched left, 2 = unmatched right, 3 = matched), with an optional
  assertion on the flag.  Tables are embedded at the key/payload level:
  a table is a `List (κ × payload)` where `κ` is the tuple of join-key
  columns and the payload collects the remaining columns.
* `group_id` — dense zero-based ids for the distinct key combinations of a
  table, optionally merged back via `stata_merge`.
* `winsorize` — per-column quantile trimming; embedded at column level with
  rows as association lists `column-name → Option ℚ` (`none` models NaN).
* `df_to_list` — the row-sequence adapter.

A small heap model (frames addressed by references, mutation as heap update)
embeds the imperative copy discipline of `stata_merge` and `winsorize`.
-/

namespace Frametools

/-- `pandas.DataFrame.drop_duplicates` on a list of key tuples: keep the
first occurrence of each value, preserving first-appearance order. -/
def dropDuplicates {κ : Type} [DecidableEq κ] : List κ → List κ
  | [] => []
  | k :: ks => k :: dropDuplicates (ks.filter (fun x => x ≠ k))
termination_by l => l.length
decreasing_by
  simp only [List.length_cons]
  exact Nat.lt_succ_of_le (List.length_filter_le _ _)

theorem mem_dropDuplicates {κ : Type} [DecidableEq κ] (l : List κ) (a : κ) :
    a ∈ dropDuplicates l ↔ a ∈ l := by
  induction l using dropDuplicates.induct with
  | case1 => simp [dropDuplicates]
  | case2 k ks ih =>
    rw [dropDuplicates]
    constructor
    · intro h
      rcases List.mem_cons.1 h with rfl | h
      · exact List.mem_cons_self _ _
      · exact List.mem_cons_of_mem _ (List.mem_of_mem_filter (ih.1 h))
    · intro h
      rcases List.mem_cons.1 h with rfl | h
      · exact List.mem_cons_self _ _
      · by_cases hak : a = k
        · subst hak; exact List.mem_cons_self _ _
        · exact List.mem_cons_of_mem _
            (ih.2 (List.mem_filter.2 ⟨h, by simp [hak]⟩))

theorem nodup_dropDuplicates {κ : Type} [DecidableEq κ] (l : List κ) :
    (dropDuplicates l).Nodup := by
  induction l using dropDuplicates.induct with
  | case1 => simp [dropDuplicates]
  | case2 k ks ih =>
    rw [dropDuplicates]
    refine List.nodup_cons.2 ⟨?_, ih⟩
    intro hmem
    have := (mem_dropDuplicates _ _).1 hmem
    simp [List.mem_filter] at this

theorem dropDuplicates_sublist {κ : Type} [DecidableEq κ] (l : List κ) :
    (dropDuplicates l).Sublist l := by
  induction l using dropDuplicates.induct with
  | case1 => simp [dropDuplicates]
  | case2 k ks ih =>
    rw [dropDuplicates]
    exact List.Sublist.cons₂ k (ih.trans (List.filter_sublist _))

theorem length_dropDuplicates_eq_card {κ : Type} [DecidableEq κ] (l : List κ) :
    (dropDuplicates l).length = l.toFinset.card := by
  have hset : (dropDuplicates l).toFinset = l.toFinset := by
    ext a
    simp [List.mem_toFinset, mem_dropDuplicates]
  rw [← hset, List.toFinset_card_of_nodup (nodup_dropDuplicates l)]

/-- Relative first-occurrence order is preserved by `List.filter`. -/
theorem idxOf_filter_lt {κ : Type} [DecidableEq κ] (p : κ → Bool)
    (l : List κ) (a b : κ) (ha : a ∈ l.filter p) (hb : b ∈ l.filter p)
    (h : (l.filter p).indexOf a < (l.filter p).indexOf b) :
    l.indexOf a < l.indexOf b := by
  induction l with
  | nil => simp at ha
  | cons x xs ih =>
    by_cases hpx : p x
    · rw [List.filter_cons_of_pos hpx] at ha hb h
      by_cases hax : a = x
      · subst hax
        by_cases hbx : b = a
        · subst hbx; simp at h
        · simp [List.indexOf_cons_self, List.indexOf_cons_ne _ (Ne.symm hbx)]
      · by_cases hbx : b = x
        · subst hbx
          rw [List.indexOf_cons_self] at h
          simp [List.indexOf_cons_ne _ (Ne.symm hax)] at h
        · rw [List.indexOf_cons_ne _ (Ne.symm hax), List.indexOf_cons_ne _ (Ne.symm hbx)] at h ⊢
          have ha' : a ∈ xs.filter p := by
            rcases List.mem_cons.1 ha with h1 | h1
            · exact absurd h1 hax
            · exact h1
          have hb' : b ∈ xs.filter p := by
            rcases List.mem_cons.1 hb with h1 | h1
            · exact absurd h1 hbx
            · exact h1
          exact Nat.succ_lt_succ (ih ha' hb' (Nat.lt_of_succ_lt_succ h))
    · rw [List.filter_cons_of_neg hpx] at ha hb h
      have hax : a ≠ x := by
        rintro rfl
        have := List.of_mem_filter ha
        exact hpx this
      have hbx : b ≠ x := by
        rintro rfl
        have := List.of_mem_filter hb
        exact hpx this
      rw [List.indexOf_cons_ne _ (Ne.symm hax), List.indexOf_cons_ne _ (Ne.symm hbx)]
      exact Nat.succ_lt_succ (ih ha hb h)

/-- The first-occurrence dedup lists its elements in order of strictly
increasing first-occurrence position in the original list. -/
theorem dropDuplicates_pairwise_idxOf {κ : Type} [DecidableEq κ] (l : List κ) :
    (dropDuplicates l).Pairwise (fun a b => l.indexOf a < l.indexOf b) := by
  induction l using dropDuplicates.induct with
  | case1 => simp [dropDuplicates]
  | case2 k ks ih =>
    rw [dropDuplicates]
    refine List.pairwise_cons.2 ⟨?_, ?_⟩
    · intro b hb
      have hbmem : b ∈ ks.filter (fun x => x ≠ k) :=
        (mem_dropDuplicates _ _).1 hb
      have hbk : b ≠ k := by
        have := List.of_mem_filter hbmem
        simpa using this
      rw [List.indexOf_cons_self, List.indexOf_cons_ne _ (Ne.symm hbk)]
      exact Nat.succ_pos _
    · refine (ih.imp_of_mem ?_)
      intro a b ha hb hab
      have ha' := (mem_dropDuplicates _ _).1 ha
      have hb' := (mem_dropDuplicates _ _).1 hb
      have hak : a ≠ k := by simpa using List.of_mem_filter ha'
      have hbk : b ≠ k := by simpa using List.of_mem_filter hb'
      rw [List.indexOf_cons_ne _ (Ne.symm hak), List.indexOf_cons_ne _ (Ne.symm hbk)]
      exact Nat.succ_lt_succ
        (idxOf_filter_lt _ ks a b ha' hb' hab)

/-! ### Marker-name generation (`stata_merge`, lines 31–37)

`left_tmp = 'tmpa'; while left_tmp in left.columns: left_tmp += 'a'`
(and symmetrically with `'tmpb'`/`'b'` for the right table). -/

def maxStrLen (cols : List String) : Nat := (cols.map String.length).foldr max 0

theorem le_maxStrLen (cols : List String) (s : String) (h : s ∈ cols) :
    s.length ≤ maxStrLen cols := by
  induction cols with
  | nil => simp at h
  | cons x xs ih =>
    rcases List.mem_cons.1 h with rfl | h
    · simp only [maxStrLen, List.map_cons, List.foldr_cons]
      exact le_max_left _ _
    · simp only [maxStrLen, List.map_cons, List.foldr_cons]
      exact le_trans (ih h) (le_max_right _ _)

/-- The `while name in cols: name += c` loop: append `c` to `base` until the
result is not a column of `cols`. -/
def growName (cols : List String) (c : Char) (base : String) : String :=
  if h : base ∈ cols then growName cols c (base.push c) else base
termination_by maxStrLen cols + 1 - base.length
decreasing_by
  have hle : base.length ≤ maxStrLen cols := le_maxStrLen cols base h
  simp only [String.length_push]
  omega

theorem growName_not_mem (cols : List String) (c : Char) (base : String) :
    growName cols c base ∉ cols := by
  induction base using growName.induct cols c with
  | case1 base h ih =>
    rw [growName, dif_pos h]
    exact ih
  | case2 base h =>
    rw [growName, dif_neg h]
    exact h

/-- Line 32/34: the left marker name, fresh with respect to the left table's
columns only. -/
def leftTmpName (cols : List String) : String := growName cols 'a' "tmpa"

/-- Line 33/36: the right marker name, fresh with respect to the right
table's columns only. -/
def rightTmpName (cols : List String) : String := growName cols 'b' "tmpb"

/-! ### Key-level model of `pandas.merge` and `stata_merge` (lines 9–62)

A table is a `List (κ × payload)`: `κ` is the tuple of values of the join-key
columns (`on=...`), the payload collects the remaining columns of that side.
A joined row keeps the key and the optional contribution of each side
(`none` = that side's columns are NaN, i.e. the row is unmatched). -/

inductive How where
  | inner
  | left
  | right
  | outer
deriving DecidableEq

structure JRow (κ α β : Type) where
  key : κ
  lft : Option α
  rgt : Option β
deriving DecidableEq

variable {κ α β : Type} [DecidableEq κ]

/-- Inner join: each left row paired with every matching right row, in left
order. -/
def innerJoin (L : List (κ × α)) (R : List (κ × β)) : List (JRow κ α β) :=
  L.flatMap fun la =>
    (R.filter fun rb => rb.1 = la.1).map fun rb => ⟨la.1, some la.2, some rb.2⟩

/-- Left join: like the inner join, but a left row with no match survives
with NaN right columns. -/
def leftJoin (L : List (κ × α)) (R : List (κ × β)) : List (JRow κ α β) :=
  L.flatMap fun la =>
    let ms := R.filter fun rb => rb.1 = la.1
    if ms.isEmpty then [⟨la.1, some la.2, none⟩]
    else ms.map fun rb => ⟨la.1, some la.2, some rb.2⟩

/-- Right join: symmetric to the left join, ordered by the right table. -/
def rightJoin (L : List (κ × α)) (R : List (κ × β)) : List (JRow κ α β) :=
  R.flatMap fun rb =>
    let ms := L.filter fun la => la.1 = rb.1
    if ms.isEmpty then [⟨rb.1, none, some rb.2⟩]
    else ms.map fun la => ⟨rb.1, some la.2, some rb.2⟩

/-- Outer join: the left join plus the unmatched right rows. -/
def outerJoin (L : List (κ × α)) (R : List (κ × β)) : List (JRow κ α β) :=
  leftJoin L R ++
    (R.filter fun rb => ¬ L.any fun la => la.1 = rb.1).map
      fun rb => ⟨rb.1, none, some rb.2⟩

/-- `pandas.merge(left, right, on=K, how=how)` at key level. -/
def pdMerge (how : How) (L : List (κ × α)) (R : List (κ × β)) :
    List (JRow κ α β) :=
  match how with
  | .inner => innerJoin L R
  | .left => leftJoin L R
  | .right => rightJoin L R
  | .outer => outerJoin L R

/-- Line 40: `copy_left[left_tmp] = 1` — the left marker column. -/
def mark1 (L : List (κ × α)) : List (κ × (α × Nat)) :=
  L.map fun p => (p.1, (p.2, 1))

/-- Line 41: `copy_right[right_tmp] = 2` — the right marker column. -/
def mark2 (R : List (κ × β)) : List (κ × (β × Nat)) :=
  R.map fun p => (p.1, (p.2, 2))

/-- Line 45: `new[gen] = new[left_tmp].add(new[right_tmp], fill_value=0)` —
left-marker value (0 if NaN) plus right-marker value (0 if NaN). -/
def genOf (r : JRow κ (α × Nat) (β × Nat)) : Nat :=
  (r.lft.map Prod.snd).getD 0 + (r.rgt.map Prod.snd).getD 0

/-- Line 47: `del new[left_tmp], new[right_tmp]`. -/
def dropMarkers (r : JRow κ (α × Nat) (β × Nat)) : JRow κ α β :=
  ⟨r.key, r.lft.map Prod.fst, r.rgt.map Prod.fst⟩

/-- Lines 38–47 of `stata_merge`: mark both copies, merge, compute the merge
status flag, drop the marker columns.  Each output row is paired with its
flag (the `gen` column). -/
def stataMergeRows (how : How) (L : List (κ × α)) (R : List (κ × β)) :
    List (JRow κ α β × Nat) :=
  (pdMerge how (mark1 L) (mark2 R)).map fun r => (dropMarkers r, genOf r)

/-- Line 55/60: `new.groupby(gen).size() / new.shape[0]` — the normalized
distribution of the merge flag, as a function from flag value to fraction. -/
def mergeDist (gens : List Nat) : Nat → ℚ :=
  fun s => (gens.count s : ℚ) / (gens.length : ℚ)

/-- Python truthiness of the `assertval` argument (line 50: `if assertval:`). -/
def truthy : Option Int → Bool
  | none => false
  | some v => v != 0

/-- The value a `stata_merge` call returns: with the flag column dropped
(successful assertion) or retained (no assertion requested). -/
inductive MergeRet (κ α β : Type) where
  | plain (rows : List (JRow κ α β))
  | withGen (rows : List (JRow κ α β × Nat))
deriving DecidableEq

/-- The observable outcome of a `stata_merge` call: the distribution reports
printed (in order) and either the returned table or an `AssertionError`. -/
structure MergeEff (κ α β : Type) where
  reports : List (Nat → ℚ)
  ret : Except Unit (MergeRet κ α β)

/-- Lines 9–62: the whole of `stata_merge`.  If `assertval` is truthy, check
`(new[gen] == assertval).min()` (vacuously true on an empty table): on
success drop the flag column, on failure print the distribution and raise;
if `assertval` is falsy, print the distribution and keep the flag column. -/
def stataMerge (how : How) (assertval : Option Int) (L : List (κ × α))
    (R : List (κ × β)) : MergeEff κ α β :=
  let rows := stataMergeRows how L R
  let gens := rows.map Prod.snd
  if truthy assertval then
    if gens.all fun g => (g : Int) == assertval.getD 0 then
      ⟨[], .ok (.plain (rows.map Prod.fst))⟩
    else
      ⟨[mergeDist gens], .error ()⟩
  else
    ⟨[mergeDist gens], .ok (.withGen rows)⟩

/-- Where a joined row's two halves come from: a `some` half is a row of the
corresponding input with the same key, a `none` half means that key has no
match on that side; at least one half is present. -/
def fromSides (L : List (κ × α)) (R : List (κ × β)) (r : JRow κ α β) : Prop :=
  ((∃ a, r.lft = some a ∧ (r.key, a) ∈ L) ∨
    (r.lft = none ∧ ∀ a, (r.key, a) ∉ L)) ∧
  ((∃ b, r.rgt = some b ∧ (r.key, b) ∈ R) ∨
    (r.rgt = none ∧ ∀ b, (r.key, b) ∉ R)) ∧
  ¬ (r.lft = none ∧ r.rgt = none)

theorem filter_key_eq_nil {γ : Type} (R : List (κ × γ)) (k : κ)
    (h : (R.filter fun rb => rb.1 = k) = []) : ∀ b, (k, b) ∉ R := by
  intro b hb
  have := List.filter_eq_nil_iff.1 h _ hb
  simp at this

theorem mem_innerJoin_fromSides (L : List (κ × α)) (R : List (κ × β))
    (r : JRow κ α β) (h : r ∈ innerJoin L R) : fromSides L R r := by
  simp only [innerJoin, List.mem_flatMap, List.mem_map, List.mem_filter] at h
  obtain ⟨la, hla, rb, ⟨hrb, hkey⟩, rfl⟩ := h
  simp only [decide_eq_true_eq] at hkey
  refine ⟨Or.inl ⟨la.2, rfl, hla⟩, Or.inl ⟨rb.2, rfl, ?_⟩, by simp⟩
  simpa [← hkey] using hrb

theorem mem_leftJoin_fromSides (L : List (κ × α)) (R : List (κ × β))
    (r : JRow κ α β) (h : r ∈ leftJoin L R) : fromSides L R r := by
  simp only [leftJoin, List.mem_flatMap] at h
  obtain ⟨la, hla, hr⟩ := h
  by_cases he : (R.filter fun rb => rb.1 = la.1).isEmpty
  · rw [if_pos he] at hr
    simp only [List.mem_singleton] at hr
    subst hr
    refine ⟨Or.inl ⟨la.2, rfl, hla⟩,
      Or.inr ⟨rfl, filter_key_eq_nil R la.1 (List.isEmpty_iff.1 he)⟩, by simp⟩
  · rw [if_neg he] at hr
    simp only [List.mem_map, List.mem_filter] at hr
    obtain ⟨rb, ⟨hrb, hkey⟩, rfl⟩ := hr
    simp only [decide_eq_true_eq] at hkey
    refine ⟨Or.inl ⟨la.2, rfl, hla⟩, Or.inl ⟨rb.2, rfl, ?_⟩, by simp⟩
    simpa [← hkey] using hrb

theorem mem_rightJoin_fromSides (L : List (κ × α)) (R : List (κ × β))
    (r : JRow κ α β) (h : r ∈ rightJoin L R) : fromSides L R r := by
  simp only [rightJoin, List.mem_flatMap] at h
  obtain ⟨rb, hrb, hr⟩ := h
  by_cases he : (L.filter fun la => la.1 = rb.1).isEmpty
  · rw [if_pos he] at hr
    simp only [List.mem_singleton] at hr
    subst hr
    refine ⟨Or.inr ⟨rfl, ?_⟩, Or.inl ⟨rb.2, rfl, hrb⟩, by simp⟩
    intro a ha
    have := List.filter_eq_nil_iff.1 (List.isEmpty_iff.1 he) _ ha
    simp at this
  · rw [if_neg he] at hr
    simp only [List.mem_map, List.mem_filter] at hr
    obtain ⟨la, ⟨hla, hkey⟩, rfl⟩ := hr
    simp only [decide_eq_true_eq] at hkey
    refine ⟨Or.inl ⟨la.2, rfl, ?_⟩, Or.inl ⟨rb.2, rfl, hrb⟩, by simp⟩
    simpa [← hkey] using hla

theorem mem_outerJoin_fromSides (L : List (κ × α)) (R : List (κ × β))
    (r : JRow κ α β) (h : r ∈ outerJoin L R) : fromSides L R r := by
  rcases List.mem_append.1 h with h | h
  · exact mem_leftJoin_fromSides L R r h
  · simp only [List.mem_map, List.mem_filter, decide_eq_true_eq] at h
    obtain ⟨rb, ⟨hrb, hkey⟩, rfl⟩ := h
    refine ⟨Or.inr ⟨rfl, ?_⟩, Or.inl ⟨rb.2, rfl, hrb⟩, by simp⟩
    intro a ha
    exact hkey (List.any_eq_true.2 ⟨(rb.1, a), ha, by simp⟩)

theorem mem_pdMerge_fromSides (how : How) (L : List (κ × α))
    (R : List (κ × β)) (r : JRow κ α β) (h : r ∈ pdMerge how L R) :
    fromSides L R r := by
  cases how with
  | inner => exact mem_innerJoin_fromSides L R r h
  | left => exact mem_leftJoin_fromSides L R r h
  | right => exact mem_rightJoin_fromSides L R r h
  | outer => exact mem_outerJoin_fromSides L R r h

theorem mark1_snd_eq (L : List (κ × α)) (k : κ) (p : α × Nat)
    (h : (k, p) ∈ mark1 L) : p.2 = 1 ∧ (k, p.1) ∈ L := by
  simp only [mark1, List.mem_map, Prod.mk.injEq] at h
  obtain ⟨q, hq, hk, hp⟩ := h
  refine ⟨by rw [← hp], ?_⟩
  rw [← hp]
  simpa [← hk] using hq

theorem mark2_snd_eq (R : List (κ × β)) (k : κ) (p : β × Nat)
    (h : (k, p) ∈ mark2 R) : p.2 = 2 ∧ (k, p.1) ∈ R := by
  simp only [mark2, List.mem_map, Prod.mk.injEq] at h
  obtain ⟨q, hq, hk, hp⟩ := h
  refine ⟨by rw [← hp], ?_⟩
  rw [← hp]
  simpa [← hk] using hq

theorem mark1_mem (L : List (κ × α)) (k : κ) (a : α) (h : (k, a) ∈ L) :
    (k, (a, 1)) ∈ mark1 L :=
  List.mem_map.2 ⟨(k, a), h, rfl⟩

theorem mark2_mem (R : List (κ × β)) (k : κ) (b : β) (h : (k, b) ∈ R) :
    (k, (b, 2)) ∈ mark2 R :=
  List.mem_map.2 ⟨(k, b), h, rfl⟩

/-- **C1.** Every row produced by `stata_merge` carries a merge flag that is
exactly one of 1 (left-only), 2 (right-only) or 3 (matched) — the flag being
computed as left-marker value (0 if absent) plus right-marker value (0 if
absent) — and every output row whose key combination is present in both
input tables carries flag 3 (matched). -/
theorem stataMerge_status_complete (how : How) (L : List (κ × α))
    (R : List (κ × β)) (rg : JRow κ α β × Nat)
    (h : rg ∈ stataMergeRows how L R) :
    (rg.2 = 1 ∨ rg.2 = 2 ∨ rg.2 = 3) ∧
      ((∃ a, (rg.1.key, a) ∈ L) → (∃ b, (rg.1.key, b) ∈ R) → rg.2 = 3) := by
  simp only [stataMergeRows, List.mem_map] at h
  obtain ⟨r, hr, rfl⟩ := h
  obtain ⟨hl, hrt, hne⟩ := mem_pdMerge_fromSides how _ _ r hr
  constructor
  · rcases hl with ⟨p, hls, hlm⟩ | ⟨hln, -⟩
    · rcases hrt with ⟨q, hrs, hrm⟩ | ⟨hrn, -⟩
      · have h1 := (mark1_snd_eq L r.key p hlm).1
        have h2 := (mark2_snd_eq R r.key q hrm).1
        right; right
        simp [genOf, hls, hrs, h1, h2]
      · have h1 := (mark1_snd_eq L r.key p hlm).1
        left
        simp [genOf, hls, hrn, h1]
    · rcases hrt with ⟨q, hrs, hrm⟩ | ⟨hrn, -⟩
      · have h2 := (mark2_snd_eq R r.key q hrm).1
        right; left
        simp [genOf, hln, hrs, h2]
      · exact absurd ⟨hln, hrn⟩ hne
  · rintro ⟨a0, ha0⟩ ⟨b0, hb0⟩
    rcases hl with ⟨p, hls, hlm⟩ | ⟨hln, hall⟩
    · rcases hrt with ⟨q, hrs, hrm⟩ | ⟨hrn, hrall⟩
      · have h1 := (mark1_snd_eq L r.key p hlm).1
        have h2 := (mark2_snd_eq R r.key q hrm).1
        simp [genOf, hls, hrs, h1, h2]
      · exact absurd (mark2_mem R r.key b0 hb0) (hrall (b0, 2))
    · exact absurd (mark1_mem L r.key a0 ha0) (hall (a0, 1))

/-- Witness for C1 at the spec's concrete scenario (§8.8): the matched row
for key 2 of an outer merge of `{(1,10),(2,20)}` with `{(2,200),(3,300)}`. -/
theorem stataMerge_status_complete_witness :
    (((⟨2, some 20, some 200⟩, 3) : JRow ℤ ℤ ℤ × Nat) ∈
      stataMergeRows How.outer [((1 : ℤ), (10 : ℤ)), (2, 20)]
        [((2 : ℤ), (200 : ℤ)), (3, 300)]) ∧
    ((3 = 1 ∨ 3 = 2 ∨ 3 = 3) ∧
      ((∃ a, ((2 : ℤ), a) ∈ [((1 : ℤ), (10 : ℤ)), (2, 20)]) →
        (∃ b, ((2 : ℤ), b) ∈ [((2 : ℤ), (200 : ℤ)), (3, 300)]) → 3 = 3)) :=
  ⟨by decide, stataMerge_status_complete How.outer
    [((1 : ℤ), (10 : ℤ)), (2, 20)] [((2 : ℤ), (200 : ℤ)), (3, 300)]
    (⟨2, some 20, some 200⟩, 3) (by decide)⟩

/-! ### `group_id` (lines 65–91)

The key tuple `κ` is the projection of a row onto `cols`; the payload `α`
collects the remaining columns; `ι` is the row's index label. -/

/-- Lines 79–81: `df[cols].drop_duplicates().reset_index(drop=True)` with the
fresh integer index reset into a column: one row `(id, key)` per distinct key
combination, ids `0, 1, 2, …` in first-appearance order. -/
def groupIdTable (keys : List κ) : List (Nat × κ) :=
  (dropDuplicates keys).enum

/-- The id `group_id` assigns to a key: its position among the distinct keys
in first-appearance order. -/
def keyId (keys : List κ) (k : κ) : Nat :=
  (dropDuplicates keys).indexOf k

theorem keyId_mem_groupIdTable (keys : List κ) (k : κ) (h : k ∈ keys) :
    (keyId keys k, k) ∈ groupIdTable keys := by
  have hk : k ∈ dropDuplicates keys := (mem_dropDuplicates _ _).2 h
  have hlt : keyId keys k < (dropDuplicates keys).length :=
    List.indexOf_lt_length.2 hk
  have := List.getElem_indexOf hlt
  refine List.mk_mem_enum_iff_get?.2 ?_
  rw [List.get?_eq_getElem?, List.getElem?_eq_getElem hlt]
  simpa [keyId] using congrArg some this

/-- Filtering an association list with distinct keys for one of its keys
yields exactly the one matching row. -/
theorem filter_eq_singleton_of_nodup {γ : Type} (R : List (κ × γ))
    (hn : (R.map Prod.fst).Nodup) (k : κ) (c : γ) (hmem : (k, c) ∈ R) :
    R.filter (fun rb => rb.1 = k) = [(k, c)] := by
  induction R with
  | nil => simp at hmem
  | cons x xs ih =>
    simp only [List.map_cons, List.nodup_cons] at hn
    obtain ⟨hx, hxs⟩ := hn
    rcases List.mem_cons.1 hmem with rfl | hmem'
    · rw [List.filter_cons_of_pos (by simp)]
      have hnil : xs.filter (fun rb => rb.1 = k) = [] := by
        refine List.filter_eq_nil_iff.2 ?_
        intro rb hrb
        simp only [decide_eq_true_eq]
        intro hk
        exact hx (hk ▸ List.mem_map.2 ⟨rb, hrb, rfl⟩)
      rw [hnil]
    · have hxk : x.1 ≠ k := by
        rintro rfl
        exact hx (List.mem_map.2 ⟨(x.1, c), hmem', rfl⟩)
      rw [List.filter_cons_of_neg (by simpa using hxk)]
      exact ih hxs hmem'

theorem mark2_filter (R : List (κ × β)) (k : κ) :
    (mark2 R).filter (fun rb => rb.1 = k) =
      (R.filter (fun rb => rb.1 = k)).map (fun p => (p.1, (p.2, 2))) := by
  induction R with
  | nil => rfl
  | cons x xs ih =>
    by_cases hx : x.1 = k
    · simp only [mark2, List.map_cons] at ih ⊢
      rw [List.filter_cons_of_pos (by simpa using hx),
        List.filter_cons_of_pos (by simpa using hx), List.map_cons]
      exact congrArg _ ih
    · simp only [mark2, List.map_cons] at ih ⊢
      rw [List.filter_cons_of_neg (by simpa using hx),
        List.filter_cons_of_neg (by simpa using hx)]
      exact ih

/-- The left merge `group_id` performs: when the right table assigns exactly
one row `(k, f k)` to every key `k` of the left table, `stata_merge`'s rows
are the left rows in order, each joined to its unique right row, all with
merge flag 3. -/
theorem stataMergeRows_groupid (ldf : List (κ × α)) (uniq : List (κ × Nat))
    (f : κ → Nat)
    (h : ∀ la ∈ ldf, uniq.filter (fun rb => rb.1 = la.1) = [(la.1, f la.1)]) :
    stataMergeRows How.left ldf uniq =
      ldf.map fun la => (⟨la.1, some la.2, some (f la.1)⟩, 3) := by
  induction ldf with
  | nil => simp [stataMergeRows, pdMerge, leftJoin, mark1]
  | cons x xs ih =>
    have hg := h x (List.mem_cons_self _ _)
    have hms : (mark2 uniq).filter (fun rb => rb.1 = x.1) =
        [(x.1, (f x.1, 2))] := by
      rw [mark2_filter, hg]
      rfl
    have htail := ih fun la hla => h la (List.mem_cons_of_mem _ hla)
    simp only [stataMergeRows, pdMerge, mark1, List.map_cons, leftJoin,
      List.flatMap_cons, hms] at htail ⊢
    simp only [List.isEmpty_cons, Bool.false_eq_true, if_false,
      List.map_cons, List.map_nil, List.singleton_append]
    rw [htail]
    simp [dropMarkers, genOf]

/-- The ways `group_id(merge=True)` fails: the line 76–77 `ValueError` (the
id name is already a column), a `KeyError` at line 45 of `stata_merge`
(pandas suffixed a marker column that collides with a pre-existing column of
the *other* frame, so the marker name no longer exists in the merged frame),
and an `AssertionError` (the `assertval=3` check, or the line 86–88 shape
check — which also fires when the flag column `'_m'` overwrote a
pre-existing column and the assert-phase delete then removed it). -/
inductive GroupIdError where
  | nameCollision
  | keyError
  | assertFail
deriving DecidableEq

/-- Lines 65–91 of `group_id` with `merge=True`, tracking column names:
`dfCols` are the columns of `df` (with `keyCols` the key subset, `κ` the key
tuple and `α` the remaining payload), `name` the new id column.  After the
line 76 name check, the crosswalk (columns `[name] ++ keyCols` after
`reset_index`) is left-merged on via `stata_merge` with `assertval=3` and
the default flag column `'_m'`.  `stata_merge` generates each marker name
fresh only with respect to its own frame (lines 32–37); the markers never
collide with each other or with the join keys, so `pandas.merge` suffixes a
marker column exactly when it is a column of the other frame
(`left_tmp = name` or `right_tmp ∈ dfCols`), and line 45's lookup of the
marker then raises `KeyError`.  If the flag name `'_m'` is itself a
pre-existing column (`'_m' ∈ dfCols` or `name = '_m'`), line 45 overwrites
that column, the assert-phase delete removes it, and the line 86–88 shape
assertion `new_j == old_j + 1` fails.  Otherwise the merge proceeds as in
the key-level model: merge, check the row-count half of the shape assertion
(the extra column being the `rgt` field), and re-attach the original index
labels (`unique_df.index = df.index`, line 89). -/
def group_id_merge {ι : Type} (dfCols keyCols : List String) (name : String)
    (df : List (ι × κ × α)) : Except GroupIdError (List (ι × JRow κ α Nat)) :=
  if name ∈ dfCols then .error .nameCollision
  else if leftTmpName dfCols = name ∨ rightTmpName (name :: keyCols) ∈ dfCols
    then .error .keyError
  else if "_m" ∈ dfCols ∨ name = "_m" then .error .assertFail
  else
    match (stataMerge How.left (some 3) (df.map fun r => (r.2.1, r.2.2))
        ((groupIdTable (df.map fun r => r.2.1)).map fun p => (p.2, p.1))).ret with
    | .ok (.plain rows) =>
        if rows.length = df.length then .ok ((df.map fun r => r.1).zip rows)
        else .error .assertFail
    | _ => .error .assertFail

/-- **C2 (counterexample).** Merge-back does not succeed on every table whose
columns avoid the id name: with `df` columns `["id", "tmpb"]`, keys `["id"]`
and id name `"group_id"`, the right marker name is generated as `"tmpb"`
(line 36 checks it only against the crosswalk's columns
`["group_id", "id"]`), which is a pre-existing column of `df`; pandas
suffixes the collision and line 45 raises `KeyError`, so `group_id` raises
instead of returning a shape-preserving table. -/
theorem group_id_merge_marker_collision :
    ("group_id" ∉ ["id", "tmpb"]) ∧
      group_id_merge ["id", "tmpb"] ["id"] "group_id"
          [((0 : Nat), ((1 : ℤ), (5 : ℤ)))] =
        Except.error GroupIdError.keyError := by
  have hr : rightTmpName ["group_id", "id"] = "tmpb" := by
    rw [rightTmpName, growName, dif_neg (by decide)]
  refine ⟨by decide, ?_⟩
  rw [group_id_merge, if_neg (by decide),
    if_pos (Or.inr (by rw [hr]; decide))]

/-- **C3.** The crosswalk `group_id` builds (no merge-back) has one row per
distinct key combination of the table, its id column is exactly the dense
range `0, 1, …, count−1` in order, and its key column lists the distinct
keys by strictly increasing position of first appearance. -/
theorem groupIdTable_dense (keys : List κ) :
    (groupIdTable keys).length = keys.toFinset.card ∧
      (groupIdTable keys).map Prod.fst = List.range (groupIdTable keys).length ∧
      ((groupIdTable keys).map Prod.snd).Pairwise
        (fun a b => keys.indexOf a < keys.indexOf b) ∧
      ∀ k, (k ∈ (groupIdTable keys).map Prod.snd ↔ k ∈ keys) := by
  have hsnd : (groupIdTable keys).map Prod.snd = dropDuplicates keys := by
    simp [groupIdTable, List.enum_eq_enumFrom, List.enumFrom_map_snd]
  refine ⟨?_, ?_, ?_, ?_⟩
  · simp [groupIdTable, List.enum_eq_enumFrom, List.enumFrom_length,
      length_dropDuplicates_eq_card]
  · simp [groupIdTable, List.enum_eq_enumFrom, List.enumFrom_map_fst,
      List.enumFrom_length, List.range_eq_range']
  · rw [hsnd]
    exact dropDuplicates_pairwise_idxOf keys
  · intro k
    rw [hsnd]
    exact mem_dropDuplicates keys k

/-- **C2 (amended).** `group_id` with `merge=True` succeeds (the internal
`assertval=3` and shape assertions hold) and returns the original rows in
the original order with the original index labels, each extended by exactly
one new field holding the row's group id — provided the requested id column
name is not a column of the table *and* the bookkeeping columns
`stata_merge` creates do not collide with pre-existing columns: the
generated left marker name is not the id name, the generated right marker
name is not a column of the table, and the flag column `'_m'` is neither a
column of the table nor the id name. -/
theorem group_id_merge_shape {ι : Type} (dfCols keyCols : List String)
    (name : String) (df : List (ι × κ × α))
    (hname : name ∉ dfCols)
    (hleft : leftTmpName dfCols ≠ name)
    (hright : rightTmpName (name :: keyCols) ∉ dfCols)
    (hm : "_m" ∉ dfCols) (hnm : name ≠ "_m") :
    ∃ out, group_id_merge dfCols keyCols name df = Except.ok out ∧
      out.length = df.length ∧
      out.map Prod.fst = df.map Prod.fst ∧
      out.map (fun p => (p.1, p.2.key, p.2.lft)) =
        df.map (fun r => (r.1, r.2.1, some r.2.2)) ∧
      ∀ p ∈ out, p.2.rgt = some (keyId (df.map fun r => r.2.1) p.2.key) := by
  have map_swap_fst : ∀ {γ δ : Type} (l : List (γ × δ)),
      (l.map fun p => (p.2, p.1)).map Prod.fst = l.map Prod.snd := by
    intro γ δ l
    simp [List.map_map, Function.comp]
  have hnodup : (((groupIdTable (df.map fun r => r.2.1)).map
      fun p => (p.2, p.1)).map Prod.fst).Nodup := by
    rw [map_swap_fst, groupIdTable, List.enum_eq_enumFrom,
      List.enumFrom_map_snd]
    exact nodup_dropDuplicates _
  have h : ∀ la ∈ df.map fun r => ((r.2.1 : κ), (r.2.2 : α)),
      ((groupIdTable (df.map fun r => r.2.1)).map fun p => (p.2, p.1)).filter
        (fun rb => rb.1 = la.1) =
      [(la.1, keyId (df.map fun r => r.2.1) la.1)] := by
    intro la hla
    have hkey : la.1 ∈ df.map fun r => r.2.1 := by
      obtain ⟨r, hr, rfl⟩ := List.mem_map.1 hla
      exact List.mem_map.2 ⟨r, hr, rfl⟩
    have hmem : (la.1, keyId (df.map fun r => r.2.1) la.1) ∈
        (groupIdTable (df.map fun r => r.2.1)).map fun p => (p.2, p.1) :=
      List.mem_map.2 ⟨(keyId (df.map fun r => r.2.1) la.1, la.1),
        keyId_mem_groupIdTable _ _ hkey, rfl⟩
    exact filter_eq_singleton_of_nodup _ hnodup _ _ hmem
  have hrows := stataMergeRows_groupid (df.map fun r => (r.2.1, r.2.2))
    ((groupIdTable (df.map fun r => r.2.1)).map fun p => (p.2, p.1))
    (keyId (df.map fun r => r.2.1)) h
  have heff : stataMerge How.left (some 3) (df.map fun r => (r.2.1, r.2.2))
      ((groupIdTable (df.map fun r => r.2.1)).map fun p => (p.2, p.1)) =
      ⟨[], .ok (.plain (df.map fun r =>
        (⟨r.2.1, some r.2.2, some (keyId (df.map fun x => x.2.1) r.2.1)⟩ :
          JRow κ α Nat)))⟩ := by
    rw [stataMerge, if_pos (by decide : truthy (some 3) = true),
      if_pos (by
        rw [hrows]
        simp
        intro x _ _ _ _ hx
        omega)]
    rw [hrows]
    simp [List.map_map, Function.comp]
  refine ⟨(df.map fun r => r.1).zip (df.map fun r =>
      (⟨r.2.1, some r.2.2, some (keyId (df.map fun x => x.2.1) r.2.1)⟩ :
        JRow κ α Nat)), ?_, ?_, ?_, ?_, ?_⟩
  · rw [group_id_merge, if_neg hname, if_neg (not_or.2 ⟨hleft, hright⟩),
      if_neg (not_or.2 ⟨hm, hnm⟩), heff]
    simp
  · rw [List.zip_map' (fun r => r.1) _ df]
    simp
  · rw [List.zip_map' (fun r => r.1) _ df]
    simp [List.map_map, Function.comp]
  · rw [List.zip_map' (fun r => r.1) _ df]
    simp [List.map_map, Function.comp]
  · rw [List.zip_map' (fun r => r.1) _ df]
    intro p hp
    obtain ⟨r, hr, rfl⟩ := List.mem_map.1 hp
    rfl

/-- Witness for the amended C2: a one-row table with columns `["id", "x"]`,
key `["id"]` and id name `"group_id"` satisfies all the no-collision
hypotheses and comes back shape-, order- and index-preserving with its group
id attached. -/
theorem group_id_merge_shape_witness :
    ("group_id" ∉ ["id", "x"] ∧ leftTmpName ["id", "x"] ≠ "group_id" ∧
        rightTmpName ["group_id", "id"] ∉ ["id", "x"] ∧
        "_m" ∉ ["id", "x"] ∧ "group_id" ≠ "_m") ∧
      ∃ out, group_id_merge ["id", "x"] ["id"] "group_id"
          [((0 : Nat), ((7 : ℤ), (5 : ℤ)))] = Except.ok out ∧
        out.length = [((0 : Nat), ((7 : ℤ), (5 : ℤ)))].length ∧
        out.map Prod.fst = [((0 : Nat), ((7 : ℤ), (5 : ℤ)))].map Prod.fst ∧
        out.map (fun p => (p.1, p.2.key, p.2.lft)) =
          [((0 : Nat), ((7 : ℤ), (5 : ℤ)))].map
            (fun r => (r.1, r.2.1, some r.2.2)) ∧
        ∀ p ∈ out, p.2.rgt =
          some (keyId ([((0 : Nat), ((7 : ℤ), (5 : ℤ)))].map fun r => r.2.1)
            p.2.key) := by
  have hl : leftTmpName ["id", "x"] = "tmpa" := by
    rw [leftTmpName, growName, dif_neg (by decide)]
  have hr : rightTmpName ["group_id", "id"] = "tmpb" := by
    rw [rightTmpName, growName, dif_neg (by decide)]
  refine ⟨⟨by decide, by rw [hl]; decide, by rw [hr]; decide, by decide,
      by decide⟩, ?_⟩
  exact group_id_merge_shape ["id", "x"] ["id"] "group_id"
    [((0 : Nat), ((7 : ℤ), (5 : ℤ)))] (by decide) (by rw [hl]; decide)
    (by rw [hr]; decide) (by decide) (by decide)

/-- **C5.** A `stata_merge` call with expected status `assertval ∈ {1,2,3}`:
if some output row's flag differs, the one report emitted is the normalized
flag distribution and an `AssertionError` is raised; if every row carries the
expected flag, nothing is reported and the returned table has the flag
column dropped.  A call with no expected status reports the distribution and
returns the table with the flag column retained. -/
theorem stataMerge_assert_report (how : How) (L : List (κ × α))
    (R : List (κ × β)) (v : Int) (hv : v = 1 ∨ v = 2 ∨ v = 3) :
    ((∃ rg ∈ stataMergeRows how L R, ((rg.2 : Nat) : Int) ≠ v) →
        stataMerge how (some v) L R =
          ⟨[mergeDist ((stataMergeRows how L R).map Prod.snd)],
            Except.error ()⟩) ∧
      ((∀ rg ∈ stataMergeRows how L R, ((rg.2 : Nat) : Int) = v) →
        stataMerge how (some v) L R =
          ⟨[], Except.ok (.plain ((stataMergeRows how L R).map Prod.fst))⟩) ∧
      stataMerge how none L R =
        ⟨[mergeDist ((stataMergeRows how L R).map Prod.snd)],
          Except.ok (.withGen (stataMergeRows how L R))⟩ := by
  have htv : truthy (some v) = true := by
    rcases hv with rfl | rfl | rfl <;> decide
  refine ⟨?_, ?_, ?_⟩
  · intro hex
    have hall : ¬ (((stataMergeRows how L R).map Prod.snd).all
        (fun g => (g : Int) == (some v).getD 0)) = true := by
      simp only [List.all_eq_true, beq_iff_eq, Option.getD_some]
      push_neg
      obtain ⟨rg, hrg, hne⟩ := hex
      exact ⟨rg.2, List.mem_map.2 ⟨rg, hrg, rfl⟩, hne⟩
    rw [stataMerge, if_pos htv, if_neg hall]
  · intro hallv
    have hall : (((stataMergeRows how L R).map Prod.snd).all
        (fun g => (g : Int) == (some v).getD 0)) = true := by
      simp only [List.all_eq_true, beq_iff_eq, Option.getD_some]
      intro g hg
      obtain ⟨rg, hrg, rfl⟩ := List.mem_map.1 hg
      exact hallv rg hrg
    rw [stataMerge, if_pos htv, if_pos hall]
  · rw [stataMerge, if_neg (by decide : ¬ truthy none = true)]

/-- Witness for C5: merging `{(1,10)}` with an empty right table under
`how='left'` and `assertval=3` produces a left-only row, so the distribution
is reported and an `AssertionError` is raised. -/
theorem stataMerge_assert_report_witness :
    stataMerge How.left (some 3) [((1 : ℤ), (10 : ℤ))] ([] : List (ℤ × ℤ)) =
      ⟨[mergeDist [1]], Except.error ()⟩ :=
  (stataMerge_assert_report How.left [((1 : ℤ), (10 : ℤ))]
      ([] : List (ℤ × ℤ)) 3 (Or.inr (Or.inr rfl))).1
    ⟨(⟨1, some 10, none⟩, 1), by decide, by decide⟩

/-- **C4 (counterexample).** The claim says each generated marker name is
absent from the columns of *both* input tables.  The code checks a marker
name only against the table it is injected into: with left columns `["id"]`
and right columns `["id", "tmpa"]`, the generated left marker name is
`"tmpa"`, which is a pre-existing column of the right table. -/
theorem marker_name_cross_collision :
    leftTmpName ["id"] ∈ (["id", "tmpa"] : List String) := by
  have h : leftTmpName ["id"] = "tmpa" := by
    rw [leftTmpName, growName, dif_neg (by decide)]
  rw [h]
  decide

/-- **C4 (amended).** Each generated marker name is absent from the existing
columns of the table it is injected into: the left marker from the left
table's columns, the right marker from the right table's columns. -/
theorem marker_names_fresh (lcols rcols : List String) :
    leftTmpName lcols ∉ lcols ∧ rightTmpName rcols ∉ rcols :=
  ⟨growName_not_mem lcols 'a' "tmpa", growName_not_mem rcols 'b' "tmpb"⟩

/-! ### `winsorize` (lines 94–117)

Rows are association lists `column name → Option ℚ`; `none` models NaN:
every comparison against NaN is false, and quantiles are taken over the
non-NaN values only, as in pandas.  Sorting for the quantile uses insertion
sort; any sorted permutation of the values is the same list, so this agrees
with whatever sort pandas uses. -/

abbrev WRow := List (String × Option ℚ)

/-- The value of column `c` in row `r` (`none` = NaN or absent column). -/
def getVal (c : String) (r : WRow) : Option ℚ :=
  match r.find? (fun p => p.1 = c) with
  | some p => p.2
  | none => none

/-- The non-NaN values of column `c`, in row order. -/
def colVals (df : List WRow) (c : String) : List ℚ :=
  df.filterMap fun r => getVal c r

/-- `Series.quantile(q)` with the default linear interpolation: the value at
fractional position `h = q·(n−1)` of the sorted non-NaN values; NaN
(`none`) when the column has no non-NaN values. -/
def quantile (vals : List ℚ) (q : ℚ) : Option ℚ :=
  let s := vals.insertionSort (· ≤ ·)
  if s.isEmpty then none
  else
    let h : ℚ := q * ((s.length : ℚ) - 1)
    let i : Nat := ⌊h⌋.toNat
    let lo := s.getD i 0
    let hi := s.getD (i + 1) lo
    some (lo + (h - (i : ℚ)) * (hi - lo))

/-- `df[col] >= cuts[0]` on possibly-NaN operands: false if either is NaN. -/
def cmpGE : Option ℚ → Option ℚ → Bool
  | some x, some c => decide (c ≤ x)
  | _, _ => false

/-- `df[col] <= cuts[1]` on possibly-NaN operands: false if either is NaN. -/
def cmpLE : Option ℚ → Option ℚ → Bool
  | some x, some c => decide (x ≤ c)
  | _, _ => false

/-- Lines 111–112: the per-column survival mask
`(df[col] >= cuts[0]) & (df[col] <= cuts[1])`. -/
def surviveCol (df : List WRow) (c : String) (pq : ℚ × ℚ) : List Bool :=
  df.map fun r =>
    cmpGE (getVal c r) (quantile (colVals df c) pq.1) &&
      cmpLE (getVal c r) (quantile (colVals df c) pq.2)

/-- Lines 102–106: the cutoff argument `p` is either one `(lower, upper)`
pair broadcast to every column (`p = [p] * len(by)`) or an explicit
per-column list (whose length must match, line 104). -/
inductive PSpec where
  | single (pq : ℚ × ℚ)
  | perCol (ps : List (ℚ × ℚ))

def resolveP : PSpec → Nat → Option (List (ℚ × ℚ))
  | .single pq, n => some (List.replicate n pq)
  | .perCol ps, n => if ps.length = n then some ps else none

/-- Line 115: `df[survive_winsor]` — keep the rows whose mask bit is true. -/
def applyMask (df : List WRow) (m : List Bool) : List WRow :=
  ((df.zip m).filter fun p => p.2).map Prod.fst

/-- Lines 94–117: `winsorize`.  Start from an all-true mask, AND in each
column's survival mask (`np.minimum` on booleans), and filter; `none` models
the `assert len(p) == len(by)` failure. -/
def winsorize (df : List WRow) (bys : List String) (p : PSpec) :
    Option (List WRow) :=
  (resolveP p bys.length).map fun ps =>
    applyMask df ((bys.zip ps).foldl
      (fun m cp => m.zipWith and (surviveCol df cp.1 cp.2))
      (List.replicate df.length true))

/-- A row satisfies every listed column's quantile cutoffs (the cutoffs
computed from the whole table `df`). -/
def rowSurvives (df : List WRow) (cps : List (String × (ℚ × ℚ)))
    (r : WRow) : Bool :=
  cps.all fun cp =>
    cmpGE (getVal cp.1 r) (quantile (colVals df cp.1) cp.2.1) &&
      cmpLE (getVal cp.1 r) (quantile (colVals df cp.1) cp.2.2)

theorem zipWith_map_same {γ δ : Type} (f : δ → δ → δ) (g h : γ → δ)
    (l : List γ) :
    List.zipWith f (l.map g) (l.map h) = l.map fun x => f (g x) (h x) := by
  induction l with
  | nil => rfl
  | cons x xs ih => simp [ih]

theorem replicate_true_eq_map (df : List WRow) :
    List.replicate df.length true = df.map fun _ => true := by
  induction df with
  | nil => rfl
  | cons r rs ih => rw [List.length_cons, List.replicate_succ, List.map_cons, ih]

/-- The incrementally ANDed mask equals the pointwise conjunction of the
per-column tests. -/
theorem foldl_mask_eq_map (df : List WRow)
    (cps : List (String × (ℚ × ℚ))) (g : WRow → Bool) :
    cps.foldl (fun m cp => m.zipWith and (surviveCol df cp.1 cp.2))
        (df.map g) =
      df.map fun r => g r && rowSurvives df cps r := by
  induction cps generalizing g with
  | nil => simp [rowSurvives]
  | cons cp cps ih =>
    rw [List.foldl_cons, surviveCol, zipWith_map_same, ih]
    refine List.map_congr_left fun r _ => ?_
    simp [rowSurvives, Bool.and_assoc]

theorem applyMask_map_pred (df : List WRow) (g : WRow → Bool) :
    applyMask df (df.map g) = df.filter g := by
  induction df with
  | nil => rfl
  | cons r rs ih =>
    rw [applyMask] at ih
    by_cases hg : g r = true
    · have hg2 : (fun (p : WRow × Bool) => p.2) (r, g r) = true := hg
      rw [List.map_cons, applyMask, List.zip_cons_cons,
        List.filter_cons_of_pos hg2, List.map_cons, ih,
        List.filter_cons_of_pos hg]
    · have hg2 : ¬ (fun (p : WRow × Bool) => p.2) (r, g r) = true := hg
      rw [List.map_cons, applyMask, List.zip_cons_cons,
        List.filter_cons_of_neg hg2, ih, List.filter_cons_of_neg hg]

theorem winsorize_filter_aux (df : List WRow) (bys : List String)
    (p : PSpec) (ps : List (ℚ × ℚ))
    (hres : resolveP p bys.length = some ps) :
    winsorize df bys p = some (df.filter (rowSurvives df (bys.zip ps))) := by
  rw [winsorize, hres, Option.map_some', replicate_true_eq_map,
    foldl_mask_eq_map]
  have hmap : (df.map fun r => true && rowSurvives df (bys.zip ps) r) =
      df.map (rowSurvives df (bys.zip ps)) :=
    List.map_congr_left fun r _ => Bool.true_and _
  rw [hmap, applyMask_map_pred]

/-- **C6.** `winsorize` returns exactly the rows of its input that satisfy
every target column's `[lower, upper]` empirical-quantile cutoffs inclusive
(logical AND across columns): the output is the input filtered by that
per-row predicate — no rows added, whole rows kept unaltered, original
order preserved among survivors (a sublist of the input). -/
theorem winsorize_eq_filter (df : List WRow) (bys : List String)
    (ps : List (ℚ × ℚ)) (h : ps.length = bys.length) :
    winsorize df bys (.perCol ps) =
        some (df.filter (rowSurvives df (bys.zip ps))) ∧
      (df.filter (rowSurvives df (bys.zip ps))).Sublist df := by
  refine ⟨winsorize_filter_aux df bys _ ps ?_, List.filter_sublist df⟩
  rw [resolveP, if_pos h]

/-- Witness for C6: one column `"x"` with cutoffs `(0, 1/2)` over the values
`1, 100, 2`: the quantile cuts are `[1, 2]` and exactly the rows `1` and `2`
survive. -/
theorem winsorize_eq_filter_witness :
    ([((0 : ℚ), (1 / 2 : ℚ))].length = ["x"].length) ∧
      (winsorize [[("x", some 1)], [("x", some 100)], [("x", some 2)]]
          ["x"] (.perCol [(0, 1 / 2)]) =
        some ([[("x", some 1)], [("x", some 100)], [("x", some 2)]].filter
          (rowSurvives
            [[("x", some 1)], [("x", some 100)], [("x", some 2)]]
            (["x"].zip [(0, 1 / 2)]))) ∧
        ([[("x", some 1)], [("x", some 100)], [("x", some 2)]].filter
          (rowSurvives
            [[("x", some 1)], [("x", some 100)], [("x", some 2)]]
            (["x"].zip [(0, 1 / 2)]))).Sublist
          [[("x", some 1)], [("x", some 100)], [("x", some 2)]]) ∧
      [[("x", some 1)], [("x", some 100)], [("x", some 2)]].filter
          (rowSurvives
            [[("x", some 1)], [("x", some 100)], [("x", some 2)]]
            (["x"].zip [(0, 1 / 2)])) =
        [[("x", some 1)], [("x", some 2)]] :=
  ⟨rfl, winsorize_eq_filter
      [[("x", some 1)], [("x", some 100)], [("x", some 2)]]
      ["x"] [(0, 1 / 2)] rfl,
    by
      have hc : colVals [[("x", some 1)], [("x", some 100)], [("x", some 2)]]
          "x" = [1, 100, 2] := by
        norm_num [colVals, getVal, List.filterMap_cons, List.find?_cons]
      have h0 : quantile [(1 : ℚ), 100, 2] 0 = some 1 := by
        norm_num [quantile, List.insertionSort, List.orderedInsert]
      have h2 : quantile [(1 : ℚ), 100, 2] (1 / 2) = some 2 := by
        norm_num [quantile, List.insertionSort, List.orderedInsert]
      norm_num [rowSurvives, hc, h0, h2, getVal, cmpGE, cmpLE]⟩

theorem quantile_zero_min (vals : List ℚ) (hne : vals ≠ []) :
    ∃ m, quantile vals 0 = some m ∧ ∀ x ∈ vals, m ≤ x := by
  have hperm := List.perm_insertionSort (· ≤ ·) vals
  have hsorted := List.sorted_insertionSort (· ≤ ·) vals
  have hsne : vals.insertionSort (· ≤ ·) ≠ [] := by
    intro h0
    rw [h0] at hperm
    exact hne hperm.symm.eq_nil
  obtain ⟨a, t, hat⟩ := List.exists_cons_of_ne_nil hsne
  refine ⟨a, ?_, ?_⟩
  · simp [quantile, hat, Int.floor_zero]
  · intro x hx
    have hxs : x ∈ a :: t := hat ▸ hperm.mem_iff.2 hx
    rw [hat] at hsorted
    rcases List.mem_cons.1 hxs with rfl | hxt
    · exact le_refl x
    · exact (List.sorted_cons.1 hsorted).1 x hxt

theorem sorted_le_getLast : ∀ (s : List ℚ), List.Sorted (· ≤ ·) s →
    ∀ x ∈ s, ∀ (hne : s ≠ []), x ≤ s.getLast hne := by
  intro s
  induction s with
  | nil =>
    intro _ x hx
    simp at hx
  | cons a t ih =>
    intro hs x hx hne
    cases t with
    | nil =>
      rcases List.mem_cons.1 hx with rfl | hx0
      · rw [List.getLast_singleton]
      · simp at hx0
    | cons b u =>
      obtain ⟨hhead, htail⟩ := List.sorted_cons.1 hs
      rw [List.getLast_cons (by simp)]
      rcases List.mem_cons.1 hx with rfl | hxt
      · exact le_trans (hhead b (List.mem_cons_self _ _))
          (ih htail b (List.mem_cons_self _ _) (by simp))
      · exact ih htail x hxt (by simp)

theorem quantile_one_max (vals : List ℚ) (hne : vals ≠ []) :
    ∃ M, quantile vals 1 = some M ∧ ∀ x ∈ vals, x ≤ M := by
  have hperm := List.perm_insertionSort (· ≤ ·) vals
  have hsorted := List.sorted_insertionSort (· ≤ ·) vals
  have hsne : vals.insertionSort (· ≤ ·) ≠ [] := by
    intro h0
    rw [h0] at hperm
    exact hne hperm.symm.eq_nil
  refine ⟨(vals.insertionSort (· ≤ ·)).getLast hsne, ?_, ?_⟩
  · have hlen : 1 ≤ (vals.insertionSort (· ≤ ·)).length :=
      Nat.one_le_iff_ne_zero.2 (fun h0 => hsne (List.length_eq_zero.1 h0))
    have hcast : ((vals.insertionSort (· ≤ ·)).length : ℚ) - 1 =
        (((vals.insertionSort (· ≤ ·)).length - 1 : ℕ) : ℚ) := by
      rw [Nat.cast_sub hlen, Nat.cast_one]
    have hfloor :
        (⌊(1 : ℚ) * (((vals.insertionSort (· ≤ ·)).length : ℚ) - 1)⌋).toNat =
          (vals.insertionSort (· ≤ ·)).length - 1 := by
      rw [one_mul, hcast, Int.floor_natCast, Int.toNat_natCast]
    have hidx : (vals.insertionSort (· ≤ ·)).length - 1 <
        (vals.insertionSort (· ≤ ·)).length := by omega
    simp only [quantile]
    rw [if_neg (fun hc => hsne (List.isEmpty_iff.1 hc)), hfloor]
    rw [List.getD_eq_getElem _ _ hidx,
      List.getD_eq_default _ _
        (by omega : (vals.insertionSort (· ≤ ·)).length ≤
          (vals.insertionSort (· ≤ ·)).length - 1 + 1)]
    rw [Option.some_inj, List.getLast_eq_getElem, one_mul, hcast]
    ring
  · intro x hx
    exact sorted_le_getLast _ hsorted x (hperm.mem_iff.2 hx) hsne

/-- **C7 (counterexample).** `winsorize` at the full-range quantile pair
`(0.0, 1.0)` is not the identity on every table: with rows `x = 1` and
`x = NaN`, the NaN row is dropped, so not all rows are returned. -/
theorem winsorize_full_range_drops_row :
    winsorize [[("x", some 1)], [("x", none)]] ["x"] (.single (0, 1)) =
        some [[("x", some 1)]] ∧
      winsorize [[("x", some 1)], [("x", none)]] ["x"] (.single (0, 1)) ≠
        some [[("x", some 1)], [("x", none)]] := by
  have hc : colVals [[("x", some 1)], [("x", none)]] "x" = [1] := by
    norm_num [colVals, getVal, List.filterMap_cons, List.find?_cons]
  have h0 : quantile [(1 : ℚ)] 0 = some 1 := by
    norm_num [quantile, List.insertionSort, List.orderedInsert]
  have h1 : quantile [(1 : ℚ)] 1 = some 1 := by
    norm_num [quantile, List.insertionSort, List.orderedInsert]
  have hval : winsorize [[("x", some 1)], [("x", none)]] ["x"]
      (.single (0, 1)) = some [[("x", some 1)]] := by
    rw [winsorize_filter_aux [[("x", some 1)], [("x", none)]] ["x"]
      (.single (0, 1)) [(0, 1)] rfl]
    norm_num [rowSurvives, hc, h0, h1, getVal, cmpGE, cmpLE, List.find?_cons]
  refine ⟨hval, ?_⟩
  rw [hval]
  intro hcontra
  simp at hcontra

/-- **C7 (amended).** On a table whose trimmed column has no missing (NaN)
values, `winsorize` with the full-range quantile pair `(0.0, 1.0)` returns
all rows unchanged. -/
theorem winsorize_full_range_id (df : List WRow) (c : String)
    (h : ∀ r ∈ df, ∃ x, getVal c r = some x) :
    winsorize df [c] (.single (0, 1)) = some df := by
  rw [winsorize_filter_aux df [c] (.single (0, 1)) [(0, 1)] rfl]
  refine congrArg some (List.filter_eq_self.2 ?_)
  intro r hr
  obtain ⟨x, hx⟩ := h r hr
  have hxv : x ∈ colVals df c := List.mem_filterMap.2 ⟨r, hr, hx⟩
  have hvne : colVals df c ≠ [] := List.ne_nil_of_mem hxv
  obtain ⟨m, hm, hmle⟩ := quantile_zero_min _ hvne
  obtain ⟨M, hM, hMle⟩ := quantile_one_max _ hvne
  simp [rowSurvives, hx, hm, hM, cmpGE, cmpLE, hmle x hxv, hMle x hxv]

/-- Witness for the amended C7: a two-row table with no NaN comes back
whole. -/
theorem winsorize_full_range_id_witness :
    (∀ r ∈ [[("x", some (5 : ℚ))], [("x", some 7)]],
        ∃ x, getVal "x" r = some x) ∧
      winsorize [[("x", some (5 : ℚ))], [("x", some 7)]] ["x"]
          (.single (0, 1)) =
        some [[("x", some (5 : ℚ))], [("x", some 7)]] := by
  have h : ∀ r ∈ [[("x", some (5 : ℚ))], [("x", some 7)]],
      ∃ x, getVal "x" r = some x := by
    intro r hr
    rcases List.mem_cons.1 hr with rfl | hr
    · exact ⟨5, rfl⟩
    · rcases List.mem_cons.1 hr with rfl | hr
      · exact ⟨7, rfl⟩
      · simp at hr
  exact ⟨h, winsorize_full_range_id _ _ h⟩

theorem cmpGE_none (w : Option ℚ) : cmpGE none w = false := by
  cases w <;> rfl

theorem cmpLE_none (w : Option ℚ) : cmpLE none w = false := by
  cases w <;> rfl

theorem resolveP_length (p : PSpec) (n : Nat) (ps : List (ℚ × ℚ))
    (h : resolveP p n = some ps) : ps.length = n := by
  cases p with
  | single pq =>
    simp only [resolveP, Option.some.injEq] at h
    rw [← h, List.length_replicate]
  | perCol l =>
    simp only [resolveP] at h
    by_cases hl : l.length = n
    · rw [if_pos hl] at h
      cases h
      exact hl
    · rw [if_neg hl] at h
      cases h

theorem exists_mem_zip {γ δ : Type} (l : List γ) (l' : List δ) (a : γ)
    (ha : a ∈ l) (hl : l.length = l'.length) : ∃ b, (a, b) ∈ l.zip l' := by
  induction l generalizing l' with
  | nil => simp at ha
  | cons x xs ih =>
    cases l' with
    | nil => simp at hl
    | cons y ys =>
      rcases List.mem_cons.1 ha with rfl | h
      · exact ⟨y, List.mem_cons_self _ _⟩
      · obtain ⟨b, hb⟩ := ih ys h (by simpa using hl)
        exact ⟨b, List.mem_cons_of_mem _ hb⟩

/-- **C10.** A row whose value in a trimmed column is missing (NaN) fails
both cutoff comparisons — against any cutoffs whatsoever — and is therefore
absent from `winsorize`'s output, whatever quantile probabilities were
requested. -/
theorem winsorize_drops_nan (df : List WRow) (bys : List String) (p : PSpec)
    (ps : List (ℚ × ℚ)) (c : String) (r : WRow) (out : List WRow)
    (hres : resolveP p bys.length = some ps) (hc : c ∈ bys)
    (hnan : getVal c r = none)
    (hout : winsorize df bys p = some out) :
    (∀ w, cmpGE (getVal c r) w = false ∧ cmpLE (getVal c r) w = false) ∧
      r ∉ out := by
  refine ⟨fun w => by rw [hnan]; exact ⟨cmpGE_none w, cmpLE_none w⟩, ?_⟩
  rw [winsorize_filter_aux df bys p ps hres, Option.some_inj] at hout
  subst hout
  intro hmem
  have hsurv := (List.mem_filter.1 hmem).2
  simp only [rowSurvives] at hsurv
  obtain ⟨pq, hpq⟩ := exists_mem_zip bys ps c hc
    (resolveP_length p bys.length ps hres).symm
  have htest := List.all_eq_true.1 hsurv (c, pq) hpq
  rw [hnan] at htest
  simp [cmpGE_none, cmpLE_none] at htest

/-- Witness for C10: the single NaN row is dropped even at the full-range
pair `(0, 1)`. -/
theorem winsorize_drops_nan_witness :
    (resolveP (.single ((0 : ℚ), (1 : ℚ))) ["x"].length = some [(0, 1)]) ∧
      ("x" ∈ ["x"]) ∧
      (getVal "x" [("x", none)] = none) ∧
      (winsorize [[("x", none)]] ["x"] (.single (0, 1)) = some []) ∧
      ((∀ w, cmpGE (getVal "x" [("x", none)]) w = false ∧
          cmpLE (getVal "x" [("x", none)]) w = false) ∧
        [("x", none)] ∉ ([] : List WRow)) :=
  ⟨rfl, List.mem_cons_self _ _, rfl, rfl,
    winsorize_drops_nan [[("x", none)]] ["x"] (.single (0, 1)) [(0, 1)] "x"
      [("x", none)] [] rfl (List.mem_cons_self _ _) rfl rfl⟩

/-! ### `df_to_list` (lines 120–127) -/

inductive PyError where
  | typeError
  | valueError
deriving DecidableEq

/-- A pandas DataFrame as seen by the adapter: index labels paired with row
objects; `iterrows()` yields the `(label, row)` pairs in order. -/
structure PDataFrame (ρ : Type) where
  rows : List (Nat × ρ)

/-- The runtime type of the argument: exactly a `list`, exactly a
`DataFrame`, or anything else (`type(df) is …` checks). -/
inductive DfInput (ρ : Type) where
  | list (l : List ρ)
  | frame (d : PDataFrame ρ)
  | other

/-- Lines 120–127: return a `list` argument unchanged, turn a `DataFrame`
into the ordered list of its row objects (`[b for a, b in df.iterrows()]`),
and `raise(ValueError)` on any other type. -/
def df_to_list {ρ : Type} : DfInput ρ → Except PyError (List ρ)
  | .list l => .ok l
  | .frame d => .ok (d.rows.map Prod.snd)
  | .other => .error .valueError

/-- **C8 (counterexample).** On an unsupported input type the adapter does
not fail with a `TypeError`: the code raises `ValueError`. -/
theorem df_to_list_not_typeError :
    df_to_list (DfInput.other : DfInput Unit) ≠
      Except.error PyError.typeError := by
  simp [df_to_list]

/-- **C8 (amended).** The adapter returns a list argument unchanged
(identity), turns a table into the ordered sequence of its row objects, and
fails with a `ValueError` (not a `TypeError`) on any other input type. -/
theorem df_to_list_spec {ρ : Type} :
    (∀ l : List ρ, df_to_list (.list l) = .ok l) ∧
      (∀ d : PDataFrame ρ,
        df_to_list (.frame d) = .ok (d.rows.map Prod.snd)) ∧
      df_to_list (DfInput.other : DfInput ρ) = .error .valueError :=
  ⟨fun _ => rfl, fun _ => rfl, rfl⟩

/-! ### The copy discipline of `stata_merge` and `winsorize` (C9)

Frames live on a heap addressed by references; a Python variable holds a
reference; `.copy()` allocates a fresh cell; in-place column assignment
(`frame[col] = v`) mutates the referenced cell; `pd.merge` and filtering
build fresh frames.  Frames are lists of the association-list rows used for
`winsorize` above (`none` = NaN), so a missing column reads as NaN. -/

abbrev Frame := List WRow

abbrev Heap := List Frame

def hget (h : Heap) (i : Nat) : Frame := h.getD i []

def halloc (h : Heap) (f : Frame) : Heap × Nat := (h ++ [f], h.length)

def hset (h : Heap) (i : Nat) (f : Frame) : Heap := h.set i f

/-- `frame.columns`, read off the first row. -/
def colsOf (f : Frame) : List String := (f.headD []).map Prod.fst

/-- `frame[c] = v`: in-place constant-column assignment. -/
def setConstCol (f : Frame) (c : String) (v : Option ℚ) : Frame :=
  f.map fun r => r ++ [(c, v)]

/-- `del frame[c]`. -/
def delCol (c : String) (f : Frame) : Frame :=
  f.map fun r => r.filter fun p => p.1 ≠ c

/-- The tuple of join-key values of a row. -/
def projOn (onKeys : List String) (r : WRow) : List (Option ℚ) :=
  onKeys.map fun k => getVal k r

/-- A matched output row: left row plus the right row's non-key columns. -/
def colMergeRow (onKeys : List String) (rl rr : WRow) : WRow :=
  rl ++ rr.filter fun p => p.1 ∉ onKeys

/-- Column-level `pandas.merge(…, on=onKeys, how=how)`: a fresh frame; an
unmatched side's columns are simply absent from the row (read as NaN). -/
def colJoin (how : How) (onKeys : List String) (L R : Frame) : Frame :=
  match how with
  | .inner => L.flatMap fun rl =>
      (R.filter fun rr => projOn onKeys rr = projOn onKeys rl).map (colMergeRow onKeys rl)
  | .left => L.flatMap fun rl =>
      let ms := R.filter fun rr => projOn onKeys rr = projOn onKeys rl
      if ms.isEmpty then [rl] else ms.map (colMergeRow onKeys rl)
  | .right => R.flatMap fun rr =>
      let ms := L.filter fun rl => projOn onKeys rl = projOn onKeys rr
      if ms.isEmpty then [rr] else ms.map fun rl => colMergeRow onKeys rl rr
  | .outer =>
      (L.flatMap fun rl =>
        let ms := R.filter fun rr => projOn onKeys rr = projOn onKeys rl
        if ms.isEmpty then [rl] else ms.map (colMergeRow onKeys rl)) ++
      (R.filter fun rr => ¬ L.any fun rl => projOn onKeys rl = projOn onKeys rr)

/-- `new.groupby(gen).size() / new.shape[0]` over rational flag values. -/
def colDist (gens : List ℚ) : ℚ → ℚ :=
  fun s => (gens.count s : ℚ) / (gens.length : ℚ)

/-- Lines 31–62 of `stata_merge` as a heap program: read the two argument
frames, generate the marker names, copy both frames (line 39), mutate the
copies in place with the marker columns (lines 40–41), merge, build the
flag column, delete the markers, and run the assert/report phase.  Returns
the final heap, the reports and the result. -/
def stataMergeProg (h : Heap) (li ri : Nat) (how : How) (onKeys : List String)
    (assertval : Option Int) (gen : String) :
    Heap × List (ℚ → ℚ) × Except Unit Frame :=
  let left := hget h li
  let right := hget h ri
  let left_tmp := growName (colsOf left) 'a' "tmpa"
  let right_tmp := growName (colsOf right) 'b' "tmpb"
  let p1 := halloc h left
  let p2 := halloc p1.1 right
  let h3 := hset p2.1 p1.2 (setConstCol (hget p2.1 p1.2) left_tmp (some 1))
  let h4 := hset h3 p2.2 (setConstCol (hget h3 p2.2) right_tmp (some 2))
  let new := colJoin how onKeys (hget h4 p1.2) (hget h4 p2.2)
  let new1 := new.map fun r =>
    r ++ [(gen, some ((getVal left_tmp r).getD 0 + (getVal right_tmp r).getD 0))]
  let new2 := delCol right_tmp (delCol left_tmp new1)
  let gens := new2.map fun r => (getVal gen r).getD 0
  let eff : List (ℚ → ℚ) × Except Unit Frame :=
    if truthy assertval then
      if gens.all fun g => g == ((assertval.getD 0 : Int) : ℚ) then
        ([], .ok (delCol gen new2))
      else
        ([colDist gens], .error ())
    else
      ([colDist gens], .ok new2)
  (h4, eff)

/-- Lines 94–117 of `winsorize` as a heap program: `df = df.copy()`
(line 98) allocates a fresh cell, and the filtering is done on the copy. -/
def winsorizeProg (h : Heap) (di : Nat) (bys : List String) (p : PSpec) :
    Heap × Option Frame :=
  let df := hget h di
  let p1 := halloc h df
  (p1.1, winsorize (hget p1.1 p1.2) bys p)

theorem hget_append_lt (h : Heap) (f : Frame) (i : Nat) (hi : i < h.length) :
    hget (h ++ [f]) i = hget h i := by
  simp [hget, List.getD_eq_getElem?_getD, List.getElem?_append_left hi]

theorem hget_set_ne (h : Heap) (i j : Nat) (f : Frame) (hne : j ≠ i) :
    hget (hset h j f) i = hget h i := by
  simp [hget, hset, List.getD_eq_getElem?_getD, List.getElem?_set_ne hne]

/-- **C9.** Neither `stata_merge` nor `winsorize` mutates the caller's
frames: both operate on copies, so after either call the heap cells of the
argument references hold exactly the frames they held before. -/
theorem no_input_mutation (h : Heap) (li ri di : Nat) (how : How)
    (onKeys : List String) (assertval : Option Int) (gen : String)
    (bys : List String) (p : PSpec)
    (hli : li < h.length) (hri : ri < h.length) (hdi : di < h.length) :
    hget (stataMergeProg h li ri how onKeys assertval gen).1 li = hget h li ∧
      hget (stataMergeProg h li ri how onKeys assertval gen).1 ri = hget h ri ∧
      hget (winsorizeProg h di bys p).1 di = hget h di := by
  refine ⟨?_, ?_, ?_⟩
  · show hget (hset (hset ((h ++ [hget h li]) ++ [hget h ri]) _ _) _ _) li = _
    rw [hget_set_ne _ _ _ _ (by simp [halloc]; omega),
      hget_set_ne _ _ _ _ (by simp [halloc]; omega),
      hget_append_lt _ _ _ (by simp [halloc]; omega),
      hget_append_lt _ _ _ hli]
  · show hget (hset (hset ((h ++ [hget h li]) ++ [hget h ri]) _ _) _ _) ri = _
    rw [hget_set_ne _ _ _ _ (by simp [halloc]; omega),
      hget_set_ne _ _ _ _ (by simp [halloc]; omega),
      hget_append_lt _ _ _ (by simp [halloc]; omega),
      hget_append_lt _ _ _ hri]
  · show hget (h ++ [hget h di]) di = _
    rw [hget_append_lt _ _ _ hdi]

/-- Witness for C9 on a two-frame heap. -/
theorem no_input_mutation_witness :
    (0 < ([[], []] : Heap).length ∧ 1 < ([[], []] : Heap).length) ∧
      (hget (stataMergeProg [[], []] 0 1 How.inner ["k"] none "_m").1 0 =
          hget [[], []] 0 ∧
        hget (stataMergeProg [[], []] 0 1 How.inner ["k"] none "_m").1 1 =
          hget [[], []] 1 ∧
        hget (winsorizeProg [[], []] 0 ["k"] (.single (0, 1))).1 0 =
          hget [[], []] 0) :=
  ⟨⟨by decide, by decide⟩,
    no_input_mutation [[], []] 0 1 0 How.inner ["k"] none "_m" ["k"]
      (.single (0, 1)) (by decide) (by decide) (by decide)⟩

end Frametools
